import Mathlib

/-!
Verification development for the MiniGit repository (C++ sources:
`Utils.h`, `BLOB_H.h`, `COMMIT_H.h`, `STAGINGAREA_H.h`, `REPOSITORY_H.h`).

Strings of the C++ program are modelled as lists of characters (`Str`).
File systems (the working tree and the `.minigit` metadata directory) are
modelled as association lists from path to file content; `Utils::readFile`
returns the empty string for a missing file, which `readF` mirrors.
-/

/-- A C++ `std::string`, modelled as a list of characters. -/
abbrev Str := List Char

/-- Shorthand turning a Lean string literal into a `Str`. -/
def str (s : String) : Str := s.data

/-- Characters treated as whitespace by `operator>>` on a `stringstream`
(the C locale's `isspace`). -/
def isWSpaceChar (c : Char) : Bool :=
  c = ' ' ∨ c = '\t' ∨ c = '\x0b' ∨ c = '\x0c' ∨ c = '\r' ∨ c = '\n'

/-- Worker for `getLines`: `acc` holds the characters of the current line
in reverse. At a `'\n'` the line is emitted; a `'\n'` that ends the input
emits the line without starting another `getline` (which would extract
nothing). -/
def getLinesGo (acc : Str) : Str → List Str
  | [] => [acc.reverse]
  | c :: rest =>
    if c = '\n' then
      match rest with
      | [] => [acc.reverse]
      | r :: rs => acc.reverse :: getLinesGo [] (r :: rs)
    else getLinesGo (c :: acc) rest

/-- The lines extracted from a string by repeated `std::getline` on a
`stringstream`: each call takes characters up to the next `'\n'` or the end
of input, and a call at end of input extracts nothing. -/
def getLines (l : Str) : List Str :=
  match l with
  | [] => []
  | c :: cs => getLinesGo [] (c :: cs)

/-- Worker for `tokenize`: `acc` holds the characters of the current token
in reverse; whitespace flushes it. -/
def tokenizeGo (acc : Str) : Str → List Str
  | [] => if acc.isEmpty then [] else [acc.reverse]
  | c :: rest =>
    if isWSpaceChar c then
      (if acc.isEmpty then tokenizeGo [] rest else acc.reverse :: tokenizeGo [] rest)
    else tokenizeGo (c :: acc) rest

/-- Whitespace-separated tokens of a string, as extracted by repeated
`parentSs >> parentHash` in `Commit::loadFromObjectStore`. -/
def tokenize (l : Str) : List Str := tokenizeGo [] l

/-- The numeric value a `char` contributes inside `Utils::computeHash`:
`char` is signed on the reference platform, so bytes at or above 128
sign-extend when added to the 64-bit `size_t` accumulator. -/
def byteVal (c : Char) : Nat :=
  if c.toNat < 128 then c.toNat else 2 ^ 64 - 256 + c.toNat

/-- The djb2 accumulator of `Utils::computeHash`: `hash = 5381`, then
`hash = hash * 33 + c` in 64-bit `size_t` arithmetic. -/
def djb2 (l : Str) : Nat :=
  l.foldl (fun h c => (h * 33 + byteVal c) % 2 ^ 64) 5381

/-- `Utils::computeHash`: the decimal rendering of the djb2 value with the
literal suffix `_temp_hash` appended. -/
def computeHash (content : Str) : Str :=
  (toString (djb2 content)).data ++ str "_temp_hash"

/-- Association list from path to file content, modelling a directory of
files (`unordered_map`-style lookup by exact key). -/
abbrev AL := List (Str × Str)

/-- Look a key up in an association list (first match wins). -/
def lookupAL (al : AL) (k : Str) : Option Str :=
  (al.find? (fun e => e.1 = k)).map (fun e => e.2)

/-- `Utils::readFile`: contents of the file at `k`, or the empty string when
the file is absent. -/
def readF (al : AL) (k : Str) : Str := (lookupAL al k).getD []

/-- `std::filesystem::exists` for a file path in an association list. -/
def existsF (al : AL) (k : Str) : Bool := (lookupAL al k).isSome

/-- `Utils::writeFile` / `map[k] = v`: replace the binding of `k` or append
it. -/
def insertAL (al : AL) (k v : Str) : AL :=
  match al with
  | [] => [(k, v)]
  | e :: rest => if e.1 = k then (k, v) :: rest else e :: insertAL rest k v

/-- `map.erase(k)`: drop the binding of `k` if present. -/
def eraseAL (al : AL) (k : Str) : AL :=
  match al with
  | [] => []
  | e :: rest => if e.1 = k then rest else e :: eraseAL rest k

/-- `Utils::startsWith`. -/
def startsWithStr (s p : Str) : Bool := s.take p.length = p

/-- A commit record (`class Commit`): hash, message, author, timestamp,
parent hashes in order, and the snapshot map from path to blob hash. -/
structure CommitR where
  hash : Str
  message : Str
  author : Str
  timestamp : Str
  parents : List Str
  snapshot : AL
deriving DecidableEq, Repr

/-- The default-constructed `Commit` (all fields empty). -/
def emptyCommit : CommitR := ⟨[], [], [], [], [], []⟩

/-- `Commit::isValid`: the commit carries a non-empty hash. -/
def CommitR.isValid (c : CommitR) : Bool := ¬ c.hash.isEmpty

/-- One snapshot line `filepath blob_hash` as read back by
`Commit::loadFromObjectStore`: split at the first `' '`; a line with no
space is skipped. -/
def parseSnapLine (line : Str) : Option (Str × Str) :=
  match line.dropWhile (fun c => c ≠ ' ') with
  | [] => none
  | _ :: rest => some (line.takeWhile (fun c => c ≠ ' '), rest)

/-- The field-parsing part of `Commit::loadFromObjectStore`: line 1 message,
line 2 author, line 3 timestamp, line 4 whitespace-split parents, remaining
lines snapshot entries. A `getline` that extracts nothing leaves the field
empty. -/
def parseCommitContent (content : Str) : CommitR :=
  let ls := getLines content
  { hash := []
    message := ls.getD 0 []
    author := ls.getD 1 []
    timestamp := ls.getD 2 []
    parents := let pl := ls.getD 3 []; if pl.isEmpty then [] else tokenize pl
    snapshot := (ls.drop 4).filterMap parseSnapLine }

/-- The parents line of `Commit::saveToObjectStore`: parent hashes joined by
single spaces. -/
def parentsLine : List Str → Str
  | [] => []
  | [p] => p
  | p :: ps => p ++ (' ' :: parentsLine ps)

/-- The snapshot lines of `Commit::saveToObjectStore`: one
`filepath SP blob_hash NL` per entry, in map order. -/
def snapLines : AL → Str
  | [] => []
  | (p, h) :: rest => p ++ (' ' :: h) ++ ('\n' :: snapLines rest)

/-- The serialized commit body built by `Commit::saveToObjectStore`:
message, author, timestamp, parents line, then the snapshot lines, each
line newline-terminated. -/
def commitSerialize (c : CommitR) : Str :=
  c.message ++ ('\n' :: c.author) ++ ('\n' :: c.timestamp) ++
    ('\n' :: parentsLine c.parents) ++ ('\n' :: snapLines c.snapshot)

/-- Path of the object with the given digest, relative to `.minigit/`
(`objectsPath / hash`). -/
def objKey (h : Str) : Str := str "objects/" ++ h

/-- `Commit::loadFromObjectStore`: read `objects/<hash>`; an empty (or
missing) file yields the invalid default commit, otherwise the parsed
fields with the hash set to the requested hash. -/
def loadFromObjectStore (mg : AL) (h : Str) : CommitR :=
  let content := readF mg (objKey h)
  if content.isEmpty then emptyCommit
  else { parseCommitContent content with hash := h }

/-- The parent-processing loop body of `Commit::isAncestor`: for each parent
in order, return found (`none` here) when it equals the searched ancestor,
otherwise enqueue it if unvisited, marking it visited. -/
def visitParents (anc : Str) : List Str → List Str → List Str → Option (List Str × List Str)
  | [], q, vis => some (q, vis)
  | p :: ps, q, vis =>
    if p = anc then none
    else if p ∈ vis then visitParents anc ps q vis
    else visitParents anc ps (q ++ [p]) (p :: vis)

/-- The BFS loop of `Commit::isAncestor`, with explicit fuel: pop the queue
head, skip it when its object is missing or empty, otherwise process its
parents. `none` means the fuel ran out with a non-empty queue. -/
def isAncestorLoop (mg : AL) (anc : Str) : Nat → List Str → List Str → Option Bool
  | _, [], _ => some false
  | 0, _ :: _, _ => none
  | fuel + 1, cur :: q, vis =>
    let c := loadFromObjectStore mg cur
    if c.isValid then
      match visitParents anc c.parents q vis with
      | none => some true
      | some qv => isAncestorLoop mg anc fuel qv.1 qv.2
    else isAncestorLoop mg anc fuel q vis

/-- Every parent hash any loadable object can contribute: the parsed parents
of every stored file's content, deduplicated. -/
def parentUniv (mg : AL) : List Str :=
  (mg.bind (fun e => (parseCommitContent e.2).parents)).dedup

/-- Fuel that §C10 proves sufficient for every BFS in this file. -/
def bfsBound (mg : AL) : Nat := (parentUniv mg).length + 2

/-- `Commit::isAncestor` up to the fuel bound: empty hashes are never
ancestors, a hash is its own ancestor, otherwise BFS from the descendant. -/
def isAncestorOpt (mg : AL) (anc desc : Str) : Option Bool :=
  if anc.isEmpty ∨ desc.isEmpty then some false
  else if anc = desc then some true
  else isAncestorLoop mg anc (bfsBound mg) [desc] [desc]

/-- `Commit::isAncestor` as the total function the repository calls. -/
def isAncestor (mg : AL) (anc desc : Str) : Bool :=
  (isAncestorOpt mg anc desc).getD false

/-- Distance-map lookup (`dist1.find` / `dist1.count`). -/
def lookupDist (d : List (Str × Nat)) (k : Str) : Option Nat :=
  (d.find? (fun e => e.1 = k)).map (fun e => e.2)

/-- The parent-relaxation loop of the first BFS in `Commit::findLCA`: each
unseen parent is recorded at distance `curDist + 1` and enqueued. -/
def relaxParents (curDist : Nat) :
    List Str → List Str → List (Str × Nat) → List Str × List (Str × Nat)
  | [], q, d => (q, d)
  | p :: ps, q, d =>
    if (lookupDist d p).isSome then relaxParents curDist ps q d
    else relaxParents curDist ps (q ++ [p]) ((p, curDist + 1) :: d)

/-- The first BFS of `Commit::findLCA`, with explicit fuel: computes the
distance map from `commit1` over parent edges. -/
def distsLoop (mg : AL) : Nat → List Str → List (Str × Nat) → Option (List (Str × Nat))
  | _, [], d => some d
  | 0, _ :: _, _ => none
  | fuel + 1, cur :: q, d =>
    let c := loadFromObjectStore mg cur
    if c.isValid then
      let qd := relaxParents ((lookupDist d cur).getD 0) c.parents q d
      distsLoop mg fuel qd.1 qd.2
    else distsLoop mg fuel q d

/-- The visited-set push loop of the second BFS in `Commit::findLCA`. -/
def pushUnvisited : List Str → List Str → List Str → List Str × List Str
  | [], q, vis => (q, vis)
  | p :: ps, q, vis =>
    if p ∈ vis then pushUnvisited ps q vis
    else pushUnvisited ps (q ++ [p]) (p :: vis)

/-- The second BFS of `Commit::findLCA`, with explicit fuel: return the
first popped hash present in the distance map of `commit1`; an exhausted
queue yields the empty string. -/
def lcaLoop (mg : AL) (d1 : List (Str × Nat)) : Nat → List Str → List Str → Option Str
  | _, [], _ => some []
  | 0, _ :: _, _ => none
  | fuel + 1, cur :: q, vis =>
    if (lookupDist d1 cur).isSome then some cur
    else
      let c := loadFromObjectStore mg cur
      if c.isValid then
        let qv := pushUnvisited c.parents q vis
        lcaLoop mg d1 fuel qv.1 qv.2
      else lcaLoop mg d1 fuel q vis

/-- `Commit::findLCA` up to the fuel bound. -/
def findLCAOpt (mg : AL) (x y : Str) : Option Str :=
  if x.isEmpty ∨ y.isEmpty then some []
  else if x = y then some x
  else
    match distsLoop mg (bfsBound mg) [x] [(x, 0)] with
    | none => none
    | some d1 => lcaLoop mg d1 (bfsBound mg) [y] [y]

/-- `Commit::findLCA` as the total function the repository calls. -/
def findLCA (mg : AL) (x y : Str) : Str := (findLCAOpt mg x y).getD []

/-- In-memory staging area state: `stagedFiles` and `removedFiles`. -/
structure StagingSt where
  staged : AL
  removed : List Str
deriving DecidableEq, Repr

/-- `StagingArea::addFile` on the in-memory state: a missing working-tree
file is an error leaving the state unchanged; otherwise the path is staged
at the digest of its current content and erased from `removedFiles`. -/
def addFileOp (wt : AL) (p : Str) (st : StagingSt) : StagingSt :=
  if existsF wt p then
    { staged := insertAL st.staged p (computeHash (readF wt p)),
      removed := st.removed.erase p }
  else st

/-- `StagingArea::removeFile`: erase the path from `stagedFiles` and insert
it into the `removedFiles` set. -/
def removeFileOp (p : Str) (st : StagingSt) : StagingSt :=
  { staged := eraseAL st.staged p,
    removed := if p ∈ st.removed then st.removed else st.removed ++ [p] }

/-- `StagingArea::clear`: empty both collections. -/
def clearOp : StagingSt := ⟨[], []⟩

/-- One staging-area mutation, as invoked by the repository. -/
inductive StagingOp where
  | add (wt : AL) (p : Str)
  | remove (p : Str)
  | clear
deriving Repr

/-- Apply one staging-area operation. -/
def applyStagingOp (st : StagingSt) : StagingOp → StagingSt
  | .add wt p => addFileOp wt p st
  | .remove p => removeFileOp p st
  | .clear => clearOp

/-- Run a sequence of staging-area operations from the empty index. -/
def runStagingOps (ops : List StagingOp) : StagingSt :=
  ops.foldl applyStagingOp ⟨[], []⟩

/-- `StagingArea::loadIndex`: parse the index file. A `staged` line splits
off the digest and then the path at the first and second spaces; a
`removed` line holds the path after the first space; malformed lines are
skipped. -/
def parseIndex (content : Str) : AL × List Str :=
  (getLines content).foldl (fun acc line =>
    if line.isEmpty then acc
    else
      match parseSnapLine line with
      | none => acc
      | some td =>
        if td.1 = str "staged" then
          match parseSnapLine td.2 with
          | none => acc
          | some hp => (insertAL acc.1 hp.2 hp.1, acc.2)
        else if td.1 = str "removed" then
          (acc.1, if td.2 ∈ acc.2 then acc.2 else acc.2 ++ [td.2])
        else acc) ([], [])

/-- `StagingArea::saveIndex`: one `staged <digest> <path>` line per staged
entry, then one `removed <path>` line per removed path. -/
def serializeIndex (staged : AL) (removed : List Str) : Str :=
  staged.foldr (fun e acc => str "staged " ++ e.2 ++ (' ' :: e.1) ++ ('\n' :: acc))
    (removed.foldr (fun p acc => str "removed " ++ p ++ ('\n' :: acc)) [])

/-- `StagingArea::hasUnstagedChanges`: part one walks the HEAD snapshot
looking for unstaged deletions and modifications; part two walks the
working tree looking for untracked files, skipping `.minigit`/`.git`
prefixes and `.gitignore`. -/
def hasUnstagedChanges (wt : AL) (staged : AL) (removed : List Str) (headSnapshot : AL) : Bool :=
  headSnapshot.any (fun e =>
    let inStaged := (lookupAL staged e.1).isSome
    let sh := (lookupAL staged e.1).getD []
    if ¬ existsF wt e.1 then
      decide (e.1 ∉ removed) && (!inStaged || decide (sh ≠ e.2))
    else
      let wh := computeHash (readF wt e.1)
      if inStaged then decide (sh ≠ wh) else decide (e.2 ≠ wh))
  || wt.any (fun e =>
    !startsWithStr e.1 (str ".minigit") && !startsWithStr e.1 (str ".git") &&
    decide (e.1 ≠ str ".gitignore") &&
    !(lookupAL headSnapshot e.1).isSome && !(lookupAL staged e.1).isSome)

/-- Repository state: the working tree (files outside the metadata
directory) and the files under `.minigit/` keyed by path relative to it
(`HEAD`, `index`, `objects/<digest>`, `refs/heads/<name>`, ...). -/
structure RepoState where
  workTree : AL
  minigit : AL
deriving DecidableEq, Repr

/-- Path of the `HEAD` file relative to `.minigit/`. -/
def headKey : Str := str "HEAD"

/-- Path of the index file relative to `.minigit/`. -/
def indexKey : Str := str "index"

/-- Path of a branch ref relative to `.minigit/` (`refsDir / name`). -/
def refKey (b : Str) : Str := str "refs/heads/" ++ b

/-- The HEAD-resolution prelude shared by `checkout` and `merge` (and
`Repository::commit`): an attached HEAD reads the branch file named after
`ref: `, a detached HEAD is the content itself. -/
def resolveHeadHash (mg : AL) : Str :=
  let hrc := readF mg headKey
  if startsWithStr hrc (str "ref: ") then
    (if existsF mg (hrc.drop 5) then readF mg (hrc.drop 5) else [])
  else hrc

/-- The snapshot of the current HEAD commit as `checkout` and `merge` load
it (the default commit's empty snapshot when HEAD resolves to nothing). -/
def headSnapshotOf (mg : AL) : AL :=
  let chh := resolveHeadHash mg
  if chh.isEmpty then [] else (loadFromObjectStore mg chh).snapshot

/-- The safety gate of `checkout` and `merge`: reload the index and test
`hasUnstagedChanges` against the current HEAD snapshot. -/
def wouldOverwriteGuard (s : RepoState) : Bool :=
  let st := parseIndex (readF s.minigit indexKey)
  hasUnstagedChanges s.workTree st.1 st.2 (headSnapshotOf s.minigit)

/-- First path component of a working-tree-relative path. -/
def topName (p : Str) : Str := p.takeWhile (fun c => c ≠ '/')

/-- `Commit::restoreToWorkingDirectory`: delete every top-level entry other
than `.minigit` and `.git`, then write each snapshot path with the bytes of
its blob object. -/
def restoreWT (wt : AL) (mg : AL) (snap : AL) : AL :=
  let kept := wt.filter (fun e =>
    decide (topName e.1 = str ".minigit") || decide (topName e.1 = str ".git"))
  snap.foldl (fun acc e => insertAL acc e.1 (readF mg (objKey e.2))) kept

/-- The distinct ways `Repository::checkout` returns, mapped from its
`return false` sites (and `true` for success). -/
inductive CheckoutErr where
  | wouldOverwrite
  | branchUnborn
  | refNotFound
  | targetLoadFailed
deriving DecidableEq, Repr

/-- The tail of `Repository::checkout` after HEAD has been rewritten: load
the target commit, restore the working tree, clear and persist the index. -/
def checkoutFinish (s : RepoState) (mg1 : AL) (tch : Str) :
    Except CheckoutErr Unit × RepoState :=
  let t := loadFromObjectStore mg1 tch
  if ¬ t.isValid then (Except.error CheckoutErr.targetLoadFailed, { s with minigit := mg1 })
  else
    let wt1 := restoreWT s.workTree mg1 t.snapshot
    let mg2 := insertAL mg1 indexKey (serializeIndex [] [])
    (Except.ok (), ⟨wt1, mg2⟩)

/-- `Repository::checkout`: resolve the current HEAD commit, test the
safety gate, then treat `ref` as a branch name if a branch file exists,
else as a commit hash if an object exists, updating HEAD and restoring the
working tree. -/
def checkout (s : RepoState) (ref : Str) : Except CheckoutErr Unit × RepoState :=
  if wouldOverwriteGuard s then (Except.error CheckoutErr.wouldOverwrite, s)
  else
    let mg := s.minigit
    if existsF mg (refKey ref) then
      let tch := readF mg (refKey ref)
      if tch.isEmpty then (Except.error CheckoutErr.branchUnborn, s)
      else checkoutFinish s (insertAL mg headKey (str "ref: refs/heads/" ++ ref)) tch
    else if existsF mg (objKey ref) then
      checkoutFinish s (insertAL mg headKey ref) ref
    else (Except.error CheckoutErr.refNotFound, s)

/-- The distinct ways `Repository::commit` returns without creating a
commit. -/
inductive CommitErr where
  | nothingToCommit
  | stagingScanFailed
  | stagingAreaMissing
deriving DecidableEq, Repr

/-- `Repository::commit`: reload the index; an empty index is "nothing to
commit"; otherwise resolve the parent and call
`Commit::createFromStagingArea(stagingArea->getStagingPath(), objectsDir)`.
`getStagingPath()` is the path of the index FILE (`.minigit/index`), so
`std::filesystem::recursive_directory_iterator` on it throws
`filesystem_error` (not a directory), the `catch` returns `false`, and
`commit` aborts before saving any object or touching any ref. -/
def commitOp (s : RepoState) (message : Str) : Except CommitErr Unit × RepoState :=
  let mg := s.minigit
  let st := parseIndex (readF mg indexKey)
  if st.1 = [] ∧ st.2 = [] then (Except.error CommitErr.nothingToCommit, s)
  else
    let hrc := readF mg headKey
    let _parents : List Str :=
      if startsWithStr hrc (str "ref: ") then
        (if existsF mg (hrc.drop 5) ∧ ¬ (readF mg (hrc.drop 5)).isEmpty
         then [readF mg (hrc.drop 5)] else [])
      else (if ¬ hrc.isEmpty then [hrc] else [])
    if existsF mg indexKey then (Except.error CommitErr.stagingScanFailed, s)
    else (Except.error CommitErr.stagingAreaMissing, s)

/-- Modelled from the spec: `snapshotForCommit()` — the mapping the commit
must record. Derivation: begin with the HEAD commit's snapshot, overlay
`staged`, delete `removed`. (The source has no such derivation; its
`createFromStagingArea` scans a physical staging path instead.) -/
def snapshotForCommitSpec (headSnap : AL) (staged : AL) (removed : List Str) : AL :=
  (staged.foldl (fun acc e => insertAL acc e.1 e.2) headSnap).filter
    (fun e => decide (e.1 ∉ removed))

/-- Lexicographic byte-order comparison of `std::string` (`operator<`). -/
def strLt : Str → Str → Bool
  | [], [] => false
  | [], _ :: _ => true
  | _ :: _, [] => false
  | a :: as, b :: bs =>
    if a.toNat < b.toNat then true
    else if b.toNat < a.toNat then false
    else strLt as bs

/-- Ordered insertion without duplicates, as `std::set<std::string>`
iteration order dictates. -/
def insertSorted (p : Str) : List Str → List Str
  | [] => [p]
  | q :: rest =>
    if strLt p q then p :: q :: rest
    else if p = q then q :: rest
    else q :: insertSorted p rest

/-- The `allFiles` set of `Repository::merge`: union of the three snapshots'
paths in `std::set` (lexicographic) order. -/
def setUnion (ls : List Str) : List Str := ls.foldl (fun acc p => insertSorted p acc) []

/-- Accumulator of the three-way reconciliation loop: the merged snapshot,
the conflicted paths in iteration order, and the working tree (conflict
markers are written to it as they are found). -/
structure MergeAcc where
  merged : AL
  conflicts : List Str
  wt : AL
deriving DecidableEq, Repr

/-- One iteration of the three-way loop of `Repository::merge`: identical
digests keep the current side; a side that matches the base takes the other
side (or deletes); anything else is a conflict, appending the path to the
conflict list and writing the conflict-marker text into the working tree. -/
def threeWayStep (mg : AL) (B : Str) (lcaS curS otherS : AL)
    (acc : MergeAcc) (p : Str) : MergeAcc :=
  let lH := (lookupAL lcaS p).getD []
  let cH := (lookupAL curS p).getD []
  let oH := (lookupAL otherS p).getD []
  let inCurrent := (lookupAL curS p).isSome
  let inOther := (lookupAL otherS p).isSome
  if cH = oH then { acc with merged := insertAL acc.merged p cH }
  else if lH = cH then
    (if inOther then { acc with merged := insertAL acc.merged p oH }
     else { acc with merged := eraseAL acc.merged p })
  else if lH = oH then
    (if inCurrent then { acc with merged := insertAL acc.merged p cH }
     else { acc with merged := eraseAL acc.merged p })
  else
    let cc := if cH.isEmpty then [] else readF mg (objKey cH)
    let oc := if oH.isEmpty then [] else readF mg (objKey oH)
    let marker := str "<<<<<<< HEAD\n" ++ cc ++ ('\n' :: str "=======\n") ++ oc ++
      ('\n' :: str ">>>>>>> ") ++ B ++ ['\n']
    { acc with conflicts := acc.conflicts ++ [p], wt := insertAL acc.wt p marker }

/-- The distinct ways `Repository::merge` returns, mapped from its
`return false` sites; `cannotMergeDetached` is the rejection the spec
names, which no return site of the source produces. -/
inductive MergeErr where
  | wouldOverwrite
  | headSubstrOutOfRange
  | currentBranchNoCommits
  | otherBranchNoCommits
  | commitLoadFailed
  | noCommonAncestor
  | lcaLoadFailed
  | mergeConflict (paths : List Str)
  | cannotMergeDetached
deriving DecidableEq, Repr

/-- The three-way tail of `Repository::merge` (from `findLCA` on): find
and load the merge base, reconcile per path, and either fail with the
conflict list (the working tree already holds the conflict markers, nothing
under `.minigit/` touched) or build, save and check out the merge commit
and re-seed the index from the merged snapshot via `addFile`. -/
def mergeThreeWay (s : RepoState) (B now currentBranch currentCommitHash otherCommitHash : Str)
    (currentCommit otherCommit : CommitR) : Except MergeErr Unit × RepoState :=
  let mg := s.minigit
  let lcaHash := findLCA mg currentCommitHash otherCommitHash
  if lcaHash.isEmpty then (Except.error MergeErr.noCommonAncestor, s)
  else
    let lcaCommit := loadFromObjectStore mg lcaHash
    if ¬ lcaCommit.isValid then (Except.error MergeErr.lcaLoadFailed, s)
    else
      let allFiles := setUnion (lcaCommit.snapshot.map (fun e => e.1) ++
        currentCommit.snapshot.map (fun e => e.1) ++
        otherCommit.snapshot.map (fun e => e.1))
      let acc := allFiles.foldl
        (threeWayStep mg B lcaCommit.snapshot currentCommit.snapshot otherCommit.snapshot)
        ⟨currentCommit.snapshot, [], s.workTree⟩
      if ¬ acc.conflicts.isEmpty then
        (Except.error (MergeErr.mergeConflict acc.conflicts), ⟨acc.wt, mg⟩)
      else
        let mergeMessage := str "Merge branch '" ++ B ++ str "' into " ++ currentBranch
        let mergeCommitHash := computeHash (mergeMessage ++ str "Anonymous" ++ now)
        let mc : CommitR :=
          ⟨mergeCommitHash, mergeMessage, str "Anonymous", now,
            [currentCommitHash, otherCommitHash], acc.merged⟩
        let mg1 := insertAL mg (objKey mergeCommitHash) (commitSerialize mc)
        let mg2 := insertAL mg1 (refKey currentBranch) mergeCommitHash
        let wt2 := restoreWT acc.wt mg2 acc.merged
        let staged2 := acc.merged.foldl (fun st2 e =>
          if existsF wt2 e.1 then
            insertAL st2 e.1 (computeHash (readF wt2 e.1))
          else st2) []
        let mg3 := insertAL mg2 indexKey (serializeIndex staged2 [])
        (Except.ok (), ⟨wt2, mg3⟩)

/-- The case analysis of `Repository::merge` once both tips are known:
load both commits, detect already-up-to-date and fast-forward via
`isAncestor`, otherwise fall through to the three-way merge. -/
def mergeLoaded (s : RepoState) (B now currentBranch currentCommitHash otherCommitHash : Str) :
    Except MergeErr Unit × RepoState :=
  let mg := s.minigit
  let currentCommit := loadFromObjectStore mg currentCommitHash
  let otherCommit := loadFromObjectStore mg otherCommitHash
  if ¬ currentCommit.isValid ∨ ¬ otherCommit.isValid then
    (Except.error MergeErr.commitLoadFailed, s)
  else if isAncestor mg otherCommitHash currentCommitHash then (Except.ok (), s)
  else if isAncestor mg currentCommitHash otherCommitHash then
    let mg1 := insertAL mg (refKey currentBranch) otherCommitHash
    let wt1 := restoreWT s.workTree mg1 otherCommit.snapshot
    let mg2 := insertAL mg1 indexKey (serializeIndex [] [])
    (Except.ok (), ⟨wt1, mg2⟩)
  else mergeThreeWay s B now currentBranch currentCommitHash otherCommitHash
    currentCommit otherCommit

/-- Tip resolution of `Repository::merge`: the current tip is read from
`minigitDir / currentBranch` — NOT from `refsDir / currentBranch` — while
the other tip is read from `refsDir / B`. -/
def mergeWithBranch (s : RepoState) (B now currentBranch : Str) :
    Except MergeErr Unit × RepoState :=
  let mg := s.minigit
  let currentCommitHash := readF mg currentBranch
  let otherCommitHash := readF mg (refKey B)
  if currentCommitHash.isEmpty then (Except.error MergeErr.currentBranchNoCommits, s)
  else if otherCommitHash.isEmpty then (Except.error MergeErr.otherBranchNoCommits, s)
  else if currentCommitHash = otherCommitHash then (Except.ok (), s)
  else mergeLoaded s B now currentBranch currentCommitHash otherCommitHash

/-- Branch-name extraction of `Repository::merge`:
`currentBranch = headRefContent.substr(strlen("ref: refs/heads/"))` with no
detached-HEAD check; `substr` throws `std::out_of_range` when HEAD holds
fewer than 16 characters. -/
def mergeAfterGuard (s : RepoState) (B now : Str) : Except MergeErr Unit × RepoState :=
  let hrc := readF s.minigit headKey
  if hrc.length < 16 then (Except.error MergeErr.headSubstrOutOfRange, s)
  else mergeWithBranch s B now (hrc.drop 16)

/-- `Repository::merge`, assembled from its stages: the §4.F safety gate,
then branch extraction, tip resolution and the merge case analysis.
`now` stands for `Utils::getCurrentTimestamp()`. -/
def merge (s : RepoState) (B : Str) (now : Str) : Except MergeErr Unit × RepoState :=
  if wouldOverwriteGuard s then (Except.error MergeErr.wouldOverwrite, s)
  else mergeAfterGuard s B now

/-- The digest `Repository::commit` and `Repository::merge` assign to a new
commit before saving it:
`Utils::computeHash(message + author + timestamp)` ("Simplified hash"). -/
def codeCommitDigest (c : CommitR) : Str :=
  computeHash (c.message ++ c.author ++ c.timestamp)

/-- The digest of the full serialized commit body, as
`Commit::saveToObjectStore` would compute had the hash not been pre-set. -/
def bodyCommitDigest (c : CommitR) : Str :=
  computeHash (commitSerialize c)

/-- Number of potential BFS pushes still unvisited. -/
def unvisCount (univ : List Str) (visited : Str → Bool) : Nat :=
  (univ.filter (fun p => !visited p)).length

/-- A stricter visited predicate never raises the unvisited count. -/
theorem unvisCount_mono (univ : List Str) (v1 v2 : Str → Bool)
    (himp : ∀ x, v1 x = true → v2 x = true) :
    unvisCount univ v2 ≤ unvisCount univ v1 := by
  induction univ with
  | nil => simp [unvisCount]
  | cons u us ih =>
    unfold unvisCount at ih ⊢
    rw [List.filter_cons, List.filter_cons]
    by_cases h1 : v1 u = true
    · have h2 := himp u h1
      simp only [h1, h2, Bool.not_true, Bool.false_eq_true, if_false]
      exact ih
    · by_cases h2 : v2 u = true
      · simp only [h1, h2, Bool.not_true, Bool.not_false, Bool.false_eq_true, if_false,
          Bool.not_eq_true] at *
        simp only [h1, Bool.not_false, if_true, List.length_cons]
        omega
      · simp only [Bool.not_eq_true] at h1 h2
        simp only [h1, h2, Bool.not_false, if_true, List.length_cons]
        omega

/-- Marking one reachable, unvisited element visited strictly lowers the
unvisited count. -/
theorem unvisCount_insert (univ : List Str) (hnd : univ.Nodup) (v1 v2 : Str → Bool)
    (p : Str) (hp : p ∈ univ) (hv : v1 p = false)
    (hrel : ∀ x, v2 x = (decide (x = p) || v1 x)) :
    unvisCount univ v2 + 1 ≤ unvisCount univ v1 := by
  induction univ with
  | nil => cases hp
  | cons u us ih =>
    obtain ⟨hu, hus⟩ := List.nodup_cons.mp hnd
    unfold unvisCount
    rw [List.filter_cons, List.filter_cons]
    rcases List.mem_cons.mp hp with he | hm
    · subst he
      have h2 : v2 p = true := by rw [hrel]; simp
      have hmono : unvisCount us v2 ≤ unvisCount us v1 :=
        unvisCount_mono us v1 v2 (fun x hx => by rw [hrel]; simp [hx])
      simp only [h2, hv, Bool.not_true, Bool.not_false, Bool.false_eq_true, if_false,
        if_true, List.length_cons]
      unfold unvisCount at hmono
      omega
    · have hup : u ≠ p := fun hh => hu (hh ▸ hm)
      have hsame : v2 u = v1 u := by rw [hrel]; simp [hup]
      have hih := ih hus hm
      unfold unvisCount at hih
      by_cases h1 : v1 u = true
      · simp only [hsame, h1, Bool.not_true, Bool.false_eq_true, if_false]
        exact hih
      · simp only [Bool.not_eq_true] at h1
        simp only [hsame, h1, Bool.not_false, if_true, List.length_cons]
        omega

/-- Every parent a loaded commit exposes lies in `parentUniv`. -/
theorem load_parents_subset (mg : AL) (cur : Str) :
    ∀ p ∈ (loadFromObjectStore mg cur).parents, p ∈ parentUniv mg := by
  intro p hp
  unfold loadFromObjectStore at hp
  cases hl : lookupAL mg (objKey cur) with
  | none =>
    rw [readF, hl] at hp
    simp [emptyCommit] at hp
  | some v =>
    rw [readF, hl] at hp
    simp only [Option.getD_some] at hp
    by_cases hv : v.isEmpty
    · simp [hv, emptyCommit] at hp
    · simp only [hv, if_false] at hp
      obtain ⟨e, hfind⟩ : ∃ e, List.find? (fun e => e.1 = objKey cur) mg = some e ∧ e.2 = v := by
        unfold lookupAL at hl
        cases hf : List.find? (fun e => e.1 = objKey cur) mg with
        | none => rw [hf] at hl; simp at hl
        | some e => rw [hf] at hl; simp at hl; exact ⟨e, rfl, hl⟩
      have hmem := List.mem_of_find?_eq_some hfind.1
      unfold parentUniv
      rw [List.mem_dedup]
      refine List.mem_bind.mpr ⟨e, hmem, ?_⟩
      rw [hfind.2]
      exact hp

/-- Membership in a cons list as a visited-predicate equation. -/
theorem mem_cons_decide (p : Str) (vis : List Str) :
    ∀ x, decide (x ∈ p :: vis) = (decide (x = p) || decide (x ∈ vis)) := by
  intro x
  by_cases h1 : x = p <;> by_cases h2 : x ∈ vis <;>
    simp [List.mem_cons, h1, h2]

/-- `visitParents` never raises the BFS measure. -/
theorem visitParents_measure (mg : AL) (anc : Str) :
    ∀ (ps q vis : List Str) (q2 vis2 : List Str),
    (∀ p ∈ ps, p ∈ parentUniv mg) →
    visitParents anc ps q vis = some (q2, vis2) →
    q2.length + unvisCount (parentUniv mg) (fun x => decide (x ∈ vis2)) ≤
      q.length + unvisCount (parentUniv mg) (fun x => decide (x ∈ vis)) := by
  intro ps
  induction ps with
  | nil =>
    intro q vis q2 vis2 _ h
    unfold visitParents at h
    simp at h
    simp [h.1, h.2]
  | cons p ps ih =>
    intro q vis q2 vis2 hsub h
    unfold visitParents at h
    by_cases hanc : p = anc
    · simp [hanc] at h
    · simp only [hanc, if_false] at h
      by_cases hvis : p ∈ vis
      · simp only [hvis, if_true] at h
        exact ih q vis q2 vis2 (fun x hx => hsub x (List.mem_cons_of_mem p hx)) h
      · simp only [hvis, if_false] at h
        have step := ih (q ++ [p]) (p :: vis) q2 vis2
          (fun x hx => hsub x (List.mem_cons_of_mem p hx)) h
        have hins := unvisCount_insert (parentUniv mg) (List.nodup_dedup _)
          (fun x => decide (x ∈ vis)) (fun x => decide (x ∈ p :: vis)) p
          (hsub p (List.mem_cons_self p ps)) (by simp [hvis])
          (mem_cons_decide p vis)
        simp only [List.length_append, List.length_cons, List.length_nil] at step
        omega

/-- The unvisited count is at most the universe size. -/
theorem unvisCount_le (univ : List Str) (v : Str → Bool) : unvisCount univ v ≤ univ.length :=
  List.length_filter_le _ _

/-- `isAncestorLoop` returns within the measure's worth of fuel. -/
theorem isAncestorLoop_isSome (mg : AL) (anc : Str) :
    ∀ (fuel : Nat) (q vis : List Str),
    q.length + unvisCount (parentUniv mg) (fun x => decide (x ∈ vis)) ≤ fuel →
    (isAncestorLoop mg anc fuel q vis).isSome = true := by
  intro fuel
  induction fuel with
  | zero =>
    intro q vis hm
    cases q with
    | nil => simp [isAncestorLoop]
    | cons cur q2 => simp only [List.length_cons] at hm; omega
  | succ f ih =>
    intro q vis hm
    cases q with
    | nil => simp [isAncestorLoop]
    | cons cur q2 =>
      unfold isAncestorLoop
      simp only [List.length_cons] at hm
      by_cases hval : (loadFromObjectStore mg cur).isValid = true
      · simp only [hval, if_true]
        cases hvp : visitParents anc (loadFromObjectStore mg cur).parents q2 vis with
        | none => simp
        | some qv =>
          apply ih
          have hstep := visitParents_measure mg anc
            (loadFromObjectStore mg cur).parents q2 vis qv.1 qv.2
            (load_parents_subset mg cur) (by rw [hvp])
          omega
      · simp only [Bool.not_eq_true] at hval
        simp only [hval, Bool.false_eq_true, if_false]
        apply ih
        omega

/-- Consing one distance entry as a visited-predicate equation. -/
theorem lookupDist_cons (p : Str) (n : Nat) (d : List (Str × Nat)) :
    ∀ x, (lookupDist ((p, n) :: d) x).isSome = (decide (x = p) || (lookupDist d x).isSome) := by
  intro x
  unfold lookupDist
  by_cases h : p = x
  · subst h
    rw [List.find?_cons_of_pos _ (by simp)]
    simp
  · rw [List.find?_cons_of_neg _ (by simp [h])]
    have hx : decide (x = p) = false := decide_eq_false (fun hh => h hh.symm)
    simp [hx]

/-- `relaxParents` never raises the BFS measure. -/
theorem relaxParents_measure (mg : AL) (curDist : Nat) :
    ∀ (ps q : List Str) (d : List (Str × Nat)),
    (∀ p ∈ ps, p ∈ parentUniv mg) →
    (relaxParents curDist ps q d).1.length +
      unvisCount (parentUniv mg) (fun x => (lookupDist (relaxParents curDist ps q d).2 x).isSome) ≤
    q.length + unvisCount (parentUniv mg) (fun x => (lookupDist d x).isSome) := by
  intro ps
  induction ps with
  | nil => intro q d _; simp [relaxParents]
  | cons p ps ih =>
    intro q d hsub
    unfold relaxParents
    by_cases hvis : (lookupDist d p).isSome = true
    · simp only [hvis, if_true]
      exact ih q d (fun x hx => hsub x (List.mem_cons_of_mem p hx))
    · simp only [Bool.not_eq_true] at hvis
      simp only [hvis, Bool.false_eq_true, if_false]
      have step := ih (q ++ [p]) ((p, curDist + 1) :: d)
        (fun x hx => hsub x (List.mem_cons_of_mem p hx))
      have hins := unvisCount_insert (parentUniv mg) (List.nodup_dedup _)
        (fun x => (lookupDist d x).isSome)
        (fun x => (lookupDist ((p, curDist + 1) :: d) x).isSome) p
        (hsub p (List.mem_cons_self p ps)) hvis
        (lookupDist_cons p (curDist + 1) d)
      simp only [List.length_append, List.length_cons, List.length_nil] at step
      omega

/-- `distsLoop` returns within the measure's worth of fuel. -/
theorem distsLoop_isSome (mg : AL) :
    ∀ (fuel : Nat) (q : List Str) (d : List (Str × Nat)),
    q.length + unvisCount (parentUniv mg) (fun x => (lookupDist d x).isSome) ≤ fuel →
    (distsLoop mg fuel q d).isSome = true := by
  intro fuel
  induction fuel with
  | zero =>
    intro q d hm
    cases q with
    | nil => simp [distsLoop]
    | cons cur q2 => simp only [List.length_cons] at hm; omega
  | succ f ih =>
    intro q d hm
    cases q with
    | nil => simp [distsLoop]
    | cons cur q2 =>
      unfold distsLoop
      simp only [List.length_cons] at hm
      by_cases hval : (loadFromObjectStore mg cur).isValid = true
      · simp only [hval, if_true]
        apply ih
        have hstep := relaxParents_measure mg ((lookupDist d cur).getD 0)
          (loadFromObjectStore mg cur).parents q2 d (load_parents_subset mg cur)
        omega
      · simp only [Bool.not_eq_true] at hval
        simp only [hval, Bool.false_eq_true, if_false]
        apply ih
        omega

/-- `pushUnvisited` never raises the BFS measure. -/
theorem pushUnvisited_measure (mg : AL) :
    ∀ (ps q vis : List Str),
    (∀ p ∈ ps, p ∈ parentUniv mg) →
    (pushUnvisited ps q vis).1.length +
      unvisCount (parentUniv mg) (fun x => decide (x ∈ (pushUnvisited ps q vis).2)) ≤
    q.length + unvisCount (parentUniv mg) (fun x => decide (x ∈ vis)) := by
  intro ps
  induction ps with
  | nil => intro q vis _; simp [pushUnvisited]
  | cons p ps ih =>
    intro q vis hsub
    unfold pushUnvisited
    by_cases hvis : p ∈ vis
    · simp only [hvis, if_true]
      exact ih q vis (fun x hx => hsub x (List.mem_cons_of_mem p hx))
    · simp only [hvis, if_false]
      have step := ih (q ++ [p]) (p :: vis)
        (fun x hx => hsub x (List.mem_cons_of_mem p hx))
      have hins := unvisCount_insert (parentUniv mg) (List.nodup_dedup _)
        (fun x => decide (x ∈ vis)) (fun x => decide (x ∈ p :: vis)) p
        (hsub p (List.mem_cons_self p ps)) (by simp [hvis])
        (mem_cons_decide p vis)
      simp only [List.length_append, List.length_cons, List.length_nil] at step
      omega

/-- `lcaLoop` returns within the measure's worth of fuel. -/
theorem lcaLoop_isSome (mg : AL) (d1 : List (Str × Nat)) :
    ∀ (fuel : Nat) (q vis : List Str),
    q.length + unvisCount (parentUniv mg) (fun x => decide (x ∈ vis)) ≤ fuel →
    (lcaLoop mg d1 fuel q vis).isSome = true := by
  intro fuel
  induction fuel with
  | zero =>
    intro q vis hm
    cases q with
    | nil => simp [lcaLoop]
    | cons cur q2 => simp only [List.length_cons] at hm; omega
  | succ f ih =>
    intro q vis hm
    cases q with
    | nil => simp [lcaLoop]
    | cons cur q2 =>
      unfold lcaLoop
      simp only [List.length_cons] at hm
      by_cases hfound : (lookupDist d1 cur).isSome = true
      · simp [hfound]
      · simp only [Bool.not_eq_true] at hfound
        simp only [hfound, Bool.false_eq_true, if_false]
        by_cases hval : (loadFromObjectStore mg cur).isValid = true
        · simp only [hval, if_true]
          apply ih
          have hstep := pushUnvisited_measure mg
            (loadFromObjectStore mg cur).parents q2 vis (load_parents_subset mg cur)
          omega
        · simp only [Bool.not_eq_true] at hval
          simp only [hval, Bool.false_eq_true, if_false]
          apply ih
          omega

/-- `Commit::isAncestor` always returns within the chosen fuel bound. -/
theorem isAncestorOpt_isSome (mg : AL) (a d : Str) :
    (isAncestorOpt mg a d).isSome = true := by
  unfold isAncestorOpt
  split
  · simp
  · split
    · simp
    · apply isAncestorLoop_isSome
      have := unvisCount_le (parentUniv mg) (fun x => decide (x ∈ [d]))
      unfold bfsBound
      simp only [List.length_cons, List.length_nil]
      omega

/-- `Commit::findLCA` always returns within the chosen fuel bound. -/
theorem findLCAOpt_isSome (mg : AL) (x y : Str) :
    (findLCAOpt mg x y).isSome = true := by
  unfold findLCAOpt
  split
  · simp
  · split
    · simp
    · have hd : (distsLoop mg (bfsBound mg) [x] [(x, 0)]).isSome = true := by
        apply distsLoop_isSome
        have := unvisCount_le (parentUniv mg) (fun v => (lookupDist [(x, 0)] v).isSome)
        unfold bfsBound
        simp only [List.length_cons, List.length_nil]
        omega
      obtain ⟨d1, hd1⟩ := Option.isSome_iff_exists.mp hd
      rw [hd1]
      apply lcaLoop_isSome
      have := unvisCount_le (parentUniv mg) (fun v => decide (v ∈ [y]))
      unfold bfsBound
      simp only [List.length_cons, List.length_nil]
      omega

/-- `getLinesGo` emits the pending line at the first newline. -/
theorem getLinesGo_line (l : Str) (hl : '\n' ∉ l) :
    ∀ (acc rest : Str),
    getLinesGo acc (l ++ '\n' :: rest) =
      (acc.reverse ++ l) ::
        (match rest with | [] => [] | _ :: _ => getLinesGo [] rest) := by
  induction l with
  | nil =>
    intro acc rest
    cases rest <;> simp [getLinesGo]
  | cons x xs ih =>
    intro acc rest
    have hx : x ≠ '\n' := fun hh => hl (hh ▸ List.mem_cons_self x xs)
    have hxs : '\n' ∉ xs := fun hh => hl (List.mem_cons_of_mem x hh)
    simp only [List.cons_append]
    conv_lhs => unfold getLinesGo
    simp only [hx, if_false]
    rw [ih hxs (x :: acc) rest]
    simp [List.append_assoc]

/-- A nonempty string's lines come from the worker with an empty pending
line. -/
theorem getLines_nonempty (l : Str) (h : l ≠ []) : getLines l = getLinesGo [] l := by
  cases l with
  | nil => exact absurd rfl h
  | cons c cs => rfl

/-- Serialized snapshot lines are never the empty string. -/
theorem snapLines_ne_nil (e : Str × Str) (r : AL) : snapLines (e :: r) ≠ [] := by
  obtain ⟨p, h⟩ := e
  cases p <;> simp [snapLines]

/-- The worker recovers every serialized snapshot line. -/
theorem getLinesGo_snapLines (s : AL) (hne : s ≠ [])
    (hs : ∀ e ∈ s, '\n' ∉ e.1 ∧ '\n' ∉ e.2) :
    getLinesGo [] (snapLines s) = s.map (fun e => e.1 ++ ' ' :: e.2) := by
  induction s with
  | nil => exact absurd rfl hne
  | cons e r ih =>
    obtain ⟨hp1, hp2⟩ := hs e (List.mem_cons_self e r)
    have hline : '\n' ∉ e.1 ++ ' ' :: e.2 := by
      intro hmem
      rcases List.mem_append.mp hmem with h1 | h2
      · exact hp1 h1
      · rcases List.mem_cons.mp h2 with h3 | h4
        · exact absurd h3.symm (by decide)
        · exact hp2 h4
    have hshape : snapLines (e :: r) = (e.1 ++ ' ' :: e.2) ++ '\n' :: snapLines r := by
      cases e; simp [snapLines, List.append_assoc]
    rw [hshape, getLinesGo_line _ hline]
    cases r with
    | nil => simp [snapLines]
    | cons e2 r2 =>
      have := snapLines_ne_nil e2 r2
      cases hsn : snapLines (e2 :: r2) with
      | nil => exact absurd hsn this
      | cons a b =>
        simp only [List.reverse_nil, List.nil_append, List.map_cons]
        rw [← hsn, ih (by simp) (fun x hx => hs x (List.mem_cons_of_mem e hx))]
        simp

/-- A string followed by a newline and more input always starts with some
character. -/
theorem append_newline_cons (l rest : Str) :
    ∃ r0 rest0, l ++ '\n' :: rest = r0 :: rest0 := by
  cases l with
  | nil => exact ⟨'\n', rest, rfl⟩
  | cons x xs => exact ⟨x, xs ++ '\n' :: rest, rfl⟩

/-- `getLinesGo_line` specialised to a nonempty remainder. -/
theorem getLinesGo_line_cons (l : Str) (hl : '\n' ∉ l) (acc : Str) (r0 : Char) (rest0 : Str) :
    getLinesGo acc (l ++ '\n' :: r0 :: rest0) =
      (acc.reverse ++ l) :: getLinesGo [] (r0 :: rest0) := by
  rw [getLinesGo_line l hl acc (r0 :: rest0)]

/-- `getLinesGo_line` specialised to input ending at the newline. -/
theorem getLinesGo_line_nil (l : Str) (hl : '\n' ∉ l) (acc : Str) :
    getLinesGo acc (l ++ ['\n']) = [acc.reverse ++ l] := by
  rw [getLinesGo_line l hl acc []]

/-- The line list of a serialized commit. -/
theorem getLines_commitSerialize (c : CommitR)
    (hm : '\n' ∉ c.message) (ha : '\n' ∉ c.author) (ht : '\n' ∉ c.timestamp)
    (hpl : '\n' ∉ parentsLine c.parents)
    (hs : ∀ e ∈ c.snapshot, '\n' ∉ e.1 ∧ '\n' ∉ e.2) :
    getLines (commitSerialize c) =
      c.message :: c.author :: c.timestamp :: parentsLine c.parents ::
        c.snapshot.map (fun e => e.1 ++ ' ' :: e.2) := by
  have hshape : commitSerialize c =
      c.message ++ '\n' :: (c.author ++ '\n' :: (c.timestamp ++ '\n' ::
        (parentsLine c.parents ++ '\n' :: snapLines c.snapshot))) := by
    simp [commitSerialize, List.append_assoc]
  have hne : commitSerialize c ≠ [] := by
    rw [hshape]
    cases hmsg : c.message <;> simp
  rw [getLines_nonempty _ hne, hshape]
  obtain ⟨r1, t1, h1⟩ := append_newline_cons c.author
    (c.timestamp ++ '\n' :: (parentsLine c.parents ++ '\n' :: snapLines c.snapshot))
  rw [h1, getLinesGo_line_cons c.message hm, ← h1]
  obtain ⟨r2, t2, h2⟩ := append_newline_cons c.timestamp
    (parentsLine c.parents ++ '\n' :: snapLines c.snapshot)
  rw [h2, getLinesGo_line_cons c.author ha, ← h2]
  obtain ⟨r3, t3, h3⟩ := append_newline_cons (parentsLine c.parents)
    (snapLines c.snapshot)
  rw [h3, getLinesGo_line_cons c.timestamp ht, ← h3]
  cases hsnap : c.snapshot with
  | nil =>
    simp only [snapLines]
    rw [getLinesGo_line_nil _ hpl]
    simp
  | cons e r =>
    have hne2 := snapLines_ne_nil e r
    cases hsl : snapLines (e :: r) with
    | nil => exact absurd hsl hne2
    | cons a4 b4 =>
      rw [getLinesGo_line_cons _ hpl, ← hsl]
      rw [getLinesGo_snapLines (e :: r) (by simp) (fun x hx => hs x (hsnap ▸ hx))]
      simp

/-- `tokenizeGo` swallows a whitespace-free block into the accumulator. -/
theorem tokenizeGo_token (p : Str) (hp : ∀ ch ∈ p, isWSpaceChar ch = false) :
    ∀ (acc rest : Str), tokenizeGo acc (p ++ rest) = tokenizeGo (p.reverse ++ acc) rest := by
  induction p with
  | nil => intro acc rest; simp
  | cons x xs ih =>
    intro acc rest
    have hx : isWSpaceChar x = false := hp x (List.mem_cons_self x xs)
    simp only [List.cons_append]
    conv_lhs => unfold tokenizeGo
    simp only [hx, Bool.false_eq_true, if_false]
    rw [ih (fun ch hch => hp ch (List.mem_cons_of_mem x hch)) (x :: acc) rest]
    simp [List.append_assoc]

/-- `tokenize` recovers the space-joined parent hashes. -/
theorem tokenize_parentsLine (ps : List Str)
    (hp : ∀ p ∈ ps, p ≠ [] ∧ ∀ ch ∈ p, isWSpaceChar ch = false) :
    tokenize (parentsLine ps) = ps := by
  induction ps with
  | nil => rfl
  | cons p ps ih =>
    obtain ⟨hne, hws⟩ := hp p (List.mem_cons_self p ps)
    cases ps with
    | nil =>
      show tokenizeGo [] (parentsLine [p]) = [p]
      have hpl : parentsLine [p] = p ++ [] := by simp [parentsLine]
      have hrevne : p.reverse.isEmpty = false := by
        cases hrev : p.reverse with
        | nil => exact absurd (by simpa using hrev) hne
        | cons a b => rfl
      rw [hpl, tokenizeGo_token p hws [] []]
      unfold tokenizeGo
      simp [hrevne, List.reverse_reverse]
    | cons p2 ps2 =>
      show tokenizeGo [] (parentsLine (p :: p2 :: ps2)) = p :: p2 :: ps2
      have hline : parentsLine (p :: p2 :: ps2) = p ++ ' ' :: parentsLine (p2 :: ps2) := rfl
      rw [hline, tokenizeGo_token p hws [] (' ' :: parentsLine (p2 :: ps2))]
      conv_lhs => unfold tokenizeGo
      have hsp : isWSpaceChar ' ' = true := rfl
      have hrevne : p.reverse.isEmpty = false := by
        cases hrev : p.reverse with
        | nil => exact absurd (by simpa using hrev) hne
        | cons a b => rfl
      simp only [hsp, if_true, List.append_nil, hrevne, Bool.false_eq_true, if_false,
        List.reverse_reverse]
      show p :: tokenize (parentsLine (p2 :: ps2)) = p :: p2 :: ps2
      rw [ih (fun x hx => hp x (List.mem_cons_of_mem p hx))]

/-- `takeWhile` passes over a block that satisfies the predicate. -/
theorem takeWhile_append_all (pr : Char → Bool) (l r : List Char)
    (h : ∀ c ∈ l, pr c = true) :
    (l ++ r).takeWhile pr = l ++ r.takeWhile pr := by
  induction l with
  | nil => simp
  | cons x xs ih =>
    have hx := h x (List.mem_cons_self x xs)
    simp only [List.cons_append, List.takeWhile_cons, hx, if_true]
    rw [ih (fun c hc => h c (List.mem_cons_of_mem x hc))]

/-- `dropWhile` passes over a block that satisfies the predicate. -/
theorem dropWhile_append_all (pr : Char → Bool) (l r : List Char)
    (h : ∀ c ∈ l, pr c = true) :
    (l ++ r).dropWhile pr = r.dropWhile pr := by
  induction l with
  | nil => simp
  | cons x xs ih =>
    have hx := h x (List.mem_cons_self x xs)
    simp only [List.cons_append, List.dropWhile_cons, hx, if_true]
    exact ih (fun c hc => h c (List.mem_cons_of_mem x hc))

/-- Parsing a serialized snapshot line recovers the pair when the path is
space-free. -/
theorem parseSnapLine_mk (p h : Str) (hp : ' ' ∉ p) :
    parseSnapLine (p ++ ' ' :: h) = some (p, h) := by
  have hall : ∀ c ∈ p, decide (c ≠ ' ') = true := by
    intro c hc
    simp only [decide_eq_true_eq]
    exact fun hh => hp (hh ▸ hc)
  unfold parseSnapLine
  rw [dropWhile_append_all _ p (' ' :: h) hall]
  simp only [List.dropWhile_cons]
  rw [takeWhile_append_all _ p (' ' :: h) hall]
  simp [List.takeWhile_cons]

/-- Parsing every serialized snapshot line recovers the snapshot. -/
theorem filterMap_snapLines (s : AL) (hs : ∀ e ∈ s, ' ' ∉ e.1) :
    (s.map (fun e => e.1 ++ ' ' :: e.2)).filterMap parseSnapLine = s := by
  induction s with
  | nil => rfl
  | cons e r ih =>
    simp only [List.map_cons, List.filterMap_cons]
    rw [parseSnapLine_mk e.1 e.2 (hs e (List.mem_cons_self e r))]
    rw [ih (fun x hx => hs x (List.mem_cons_of_mem e hx))]

/-- A space-joined list of nonempty hashes is nonempty. -/
theorem parentsLine_ne_nil (ps : List Str) (hne : ps ≠ [])
    (hp : ∀ p ∈ ps, p ≠ []) : parentsLine ps ≠ [] := by
  cases ps with
  | nil => exact absurd rfl hne
  | cons p ps2 =>
    cases ps2 with
    | nil => exact hp p (List.mem_cons_self p [])
    | cons p2 ps3 =>
      have h1 := hp p (List.mem_cons_self p (p2 :: ps3))
      show p ++ ' ' :: parentsLine (p2 :: ps3) ≠ []
      cases p with
      | nil => simp
      | cons a b => simp

/-- Whitespace-free parent hashes contain no newline. -/
theorem parentsLine_no_newline (ps : List Str)
    (hp : ∀ p ∈ ps, ∀ ch ∈ p, isWSpaceChar ch = false) : '\n' ∉ parentsLine ps := by
  induction ps with
  | nil => simp [parentsLine]
  | cons p ps2 ih =>
    have hph := hp p (List.mem_cons_self p ps2)
    cases ps2 with
    | nil =>
      intro hmem
      have := hph '\n' hmem
      simp [isWSpaceChar] at this
    | cons p2 ps3 =>
      intro hmem
      show False
      rcases List.mem_append.mp hmem with h1 | h2
      · have := hph '\n' h1
        simp [isWSpaceChar] at this
      · rcases List.mem_cons.mp h2 with h3 | h4
        · exact absurd h3.symm (by decide)
        · exact ih (fun x hx => hp x (List.mem_cons_of_mem p hx)) h4

/-- C7 (amended): parsing the serialized byte form of a commit recovers the
message, author, timestamp, parents and snapshot, provided the headers
contain no newline, the parents are nonempty whitespace-free tokens, the
snapshot paths contain no space and no newline, and the blob digests
contain no newline (digests may contain spaces; paths may not, because
`loadFromObjectStore` splits a snapshot line at its FIRST space). -/
theorem C7_commit_roundtrip (c : CommitR)
    (hm : '\n' ∉ c.message) (ha : '\n' ∉ c.author) (ht : '\n' ∉ c.timestamp)
    (hp : ∀ p ∈ c.parents, p ≠ [] ∧ ∀ ch ∈ p, isWSpaceChar ch = false)
    (hs : ∀ e ∈ c.snapshot, (' ' ∉ e.1 ∧ '\n' ∉ e.1) ∧ '\n' ∉ e.2) :
    (parseCommitContent (commitSerialize c)).message = c.message ∧
    (parseCommitContent (commitSerialize c)).author = c.author ∧
    (parseCommitContent (commitSerialize c)).timestamp = c.timestamp ∧
    (parseCommitContent (commitSerialize c)).parents = c.parents ∧
    (parseCommitContent (commitSerialize c)).snapshot = c.snapshot := by
  have hpl := parentsLine_no_newline c.parents (fun p hp2 => (hp p hp2).2)
  have hlines := getLines_commitSerialize c hm ha ht hpl
    (fun e he => ⟨(hs e he).1.2, (hs e he).2⟩)
  have hparse : parseCommitContent (commitSerialize c) =
      { hash := [], message := c.message, author := c.author, timestamp := c.timestamp,
        parents := if (parentsLine c.parents).isEmpty then []
          else tokenize (parentsLine c.parents),
        snapshot := (c.snapshot.map (fun e => e.1 ++ ' ' :: e.2)).filterMap
          parseSnapLine } := by
    unfold parseCommitContent
    rw [hlines]
    rfl
  rw [hparse]
  refine ⟨rfl, rfl, rfl, ?_, ?_⟩
  · cases hps : c.parents with
    | nil => simp [parentsLine]
    | cons p ps =>
      have hnn := parentsLine_ne_nil (p :: ps) (by simp)
        (fun x hx => (hp x (hps ▸ hx)).1)
      have hie : (parentsLine (p :: ps)).isEmpty = false := by
        cases hple : parentsLine (p :: ps) with
        | nil => exact absurd hple hnn
        | cons a b => rfl
      simp only [hie, Bool.false_eq_true, if_false]
      exact tokenize_parentsLine (p :: ps) (fun x hx => hp x (hps ▸ hx))
  · exact filterMap_snapLines c.snapshot (fun e he => (hs e he).1.1)

/-- Unfolding lemma for association-list lookup. -/
theorem lookupAL_cons (e : Str × Str) (rest : AL) (k : Str) :
    lookupAL (e :: rest) k = if e.1 = k then some e.2 else lookupAL rest k := by
  unfold lookupAL
  by_cases h : e.1 = k
  · rw [List.find?_cons_of_pos _ (by simp [h])]
    simp [h]
  · rw [List.find?_cons_of_neg _ (by simp [h])]
    simp [h]

/-- Lookup after insertion: the inserted key maps to the new value, others
are untouched. -/
theorem lookupAL_insertAL (al : AL) (k v : Str) :
    ∀ k2, lookupAL (insertAL al k v) k2 = if k2 = k then some v else lookupAL al k2 := by
  induction al with
  | nil =>
    intro k2
    show lookupAL [(k, v)] k2 = _
    rw [lookupAL_cons]
    by_cases h : k2 = k
    · simp [h]
    · have hk : ¬ k = k2 := fun hh => h hh.symm
      simp [h, hk, lookupAL]
  | cons e rest ih =>
    intro k2
    unfold insertAL
    by_cases he : e.1 = k
    · simp only [he, if_true]
      rw [lookupAL_cons, lookupAL_cons]
      by_cases h : k2 = k
      · subst h
        simp
      · have hk : ¬ k = k2 := fun hh => h hh.symm
        have he2 : ¬ e.1 = k2 := fun hh => hk (he.symm.trans hh)
        simp [h, hk, he2]
    · simp only [he, if_false]
      rw [lookupAL_cons, lookupAL_cons, ih k2]
      by_cases h2 : e.1 = k2
      · have : ¬ k2 = k := fun hh => he (h2.trans hh)
        simp [h2, this]
      · simp [h2]

/-- Keys of an association list. -/
def alKeys (al : AL) : List Str := al.map (fun e => e.1)

/-- Erasure removes the key entirely when the keys are duplicate-free. -/
theorem lookupAL_eraseAL_self (al : AL) (k : Str) (hnd : (alKeys al).Nodup) :
    lookupAL (eraseAL al k) k = none := by
  induction al with
  | nil => rfl
  | cons e rest ih =>
    have hnd2 : (e.1 :: alKeys rest).Nodup := hnd
    obtain ⟨he, hrest⟩ := List.nodup_cons.mp hnd2
    unfold eraseAL
    by_cases h : e.1 = k
    · simp only [h, if_true]
      cases hl : lookupAL rest k with
      | none => rfl
      | some v =>
        exfalso
        apply he
        subst h
        unfold lookupAL at hl
        cases hf : List.find? (fun x => x.1 = e.1) rest with
        | none => rw [hf] at hl; simp at hl
        | some x =>
          have hx := List.find?_some hf
          have hmem := List.mem_of_find?_eq_some hf
          simp only [decide_eq_true_eq] at hx
          exact hx ▸ List.mem_map_of_mem (fun y => y.1) hmem
    · simp only [h, if_false]
      rw [lookupAL_cons]
      simp only [h, if_false]
      exact ih hrest

/-- Erasure leaves other keys untouched. -/
theorem lookupAL_eraseAL_ne (al : AL) (k k2 : Str) (h : k2 ≠ k) :
    lookupAL (eraseAL al k) k2 = lookupAL al k2 := by
  induction al with
  | nil => rfl
  | cons e rest ih =>
    unfold eraseAL
    by_cases he : e.1 = k
    · simp only [he, if_true]
      rw [lookupAL_cons]
      have he2 : ¬ e.1 = k2 := fun hh => h (he.symm.trans hh).symm
      simp [he2]
    · simp only [he, if_false]
      rw [lookupAL_cons, lookupAL_cons, ih]

/-- A key of the inserted list is the new key or an old key. -/
theorem mem_alKeys_insertAL (al : AL) (k v : Str) :
    ∀ x ∈ alKeys (insertAL al k v), x = k ∨ x ∈ alKeys al := by
  induction al with
  | nil => intro x hx; simp [insertAL, alKeys] at hx; exact Or.inl hx
  | cons e rest ih =>
    intro x hx
    unfold insertAL at hx
    by_cases he : e.1 = k
    · simp only [he, if_true] at hx
      rcases List.mem_cons.mp hx with h1 | h2
      · exact Or.inl h1
      · exact Or.inr (List.mem_cons_of_mem _ h2)
    · simp only [he, if_false] at hx
      rcases List.mem_cons.mp hx with h1 | h2
      · exact Or.inr (h1 ▸ List.mem_cons_self _ _)
      · rcases ih x h2 with h3 | h4
        · exact Or.inl h3
        · exact Or.inr (List.mem_cons_of_mem _ h4)

/-- Insertion keeps the keys duplicate-free. -/
theorem alKeys_insertAL_nodup (al : AL) (k v : Str) (hnd : (alKeys al).Nodup) :
    (alKeys (insertAL al k v)).Nodup := by
  induction al with
  | nil => simp [insertAL, alKeys]
  | cons e rest ih =>
    have hnd2 : (e.1 :: alKeys rest).Nodup := hnd
    obtain ⟨he, hrest⟩ := List.nodup_cons.mp hnd2
    unfold insertAL
    by_cases hk : e.1 = k
    · simp only [hk, if_true]
      refine List.nodup_cons.mpr ⟨?_, hrest⟩
      exact hk ▸ he
    · simp only [hk, if_false]
      refine List.nodup_cons.mpr ⟨?_, ih hrest⟩
      intro hmem
      rcases mem_alKeys_insertAL rest k v e.1 hmem with h1 | h2
      · exact hk h1
      · exact he h2

/-- A key of the erased list is an old key. -/
theorem mem_alKeys_eraseAL (al : AL) (k : Str) :
    ∀ x ∈ alKeys (eraseAL al k), x ∈ alKeys al := by
  induction al with
  | nil => intro x hx; exact hx
  | cons e rest ih =>
    intro x hx
    unfold eraseAL at hx
    by_cases he : e.1 = k
    · simp only [he, if_true] at hx
      exact List.mem_cons_of_mem _ hx
    · simp only [he, if_false] at hx
      rcases List.mem_cons.mp hx with h1 | h2
      · exact h1 ▸ List.mem_cons_self _ _
      · exact List.mem_cons_of_mem _ (ih x h2)

/-- Erasure keeps the keys duplicate-free. -/
theorem alKeys_eraseAL_nodup (al : AL) (k : Str) (hnd : (alKeys al).Nodup) :
    (alKeys (eraseAL al k)).Nodup := by
  induction al with
  | nil => exact hnd
  | cons e rest ih =>
    have hnd2 : (e.1 :: alKeys rest).Nodup := hnd
    obtain ⟨he, hrest⟩ := List.nodup_cons.mp hnd2
    unfold eraseAL
    by_cases hk : e.1 = k
    · simp only [hk, if_true]
      exact hrest
    · simp only [hk, if_false]
      refine List.nodup_cons.mpr ⟨?_, ih hrest⟩
      exact fun hmem => he (mem_alKeys_eraseAL rest k e.1 hmem)

/-- The index invariant: duplicate-free keys and removed set, and no path
both staged and removed. -/
def StagingInv (st : StagingSt) : Prop :=
  (alKeys st.staged).Nodup ∧ st.removed.Nodup ∧
    ∀ p ∈ st.removed, lookupAL st.staged p = none

/-- Every staging-area operation preserves the index invariant. -/
theorem stagingInv_apply (st : StagingSt) (op : StagingOp) (hinv : StagingInv st) :
    StagingInv (applyStagingOp st op) := by
  obtain ⟨hkeys, hrem, hdisj⟩ := hinv
  cases op with
  | add wt p =>
    show StagingInv (addFileOp wt p st)
    unfold addFileOp
    by_cases hex : existsF wt p = true
    · simp only [hex, if_true]
      refine ⟨alKeys_insertAL_nodup _ _ _ hkeys, hrem.erase p, ?_⟩
      intro q hq
      obtain ⟨hqp, hqmem⟩ := (List.Nodup.mem_erase_iff hrem).mp hq
      rw [lookupAL_insertAL]
      simp only [hqp, if_false]
      exact hdisj q hqmem
    · simp only [hex, if_false]
      exact ⟨hkeys, hrem, hdisj⟩
  | remove p =>
    show StagingInv (removeFileOp p st)
    unfold removeFileOp
    refine ⟨alKeys_eraseAL_nodup _ _ hkeys, ?_, ?_⟩
    · by_cases hmem : p ∈ st.removed
      · simp only [hmem, if_true]
        exact hrem
      · simp only [hmem, if_false]
        rw [List.nodup_append]
        exact ⟨hrem, List.nodup_singleton p,
          fun a ha hb => hmem ((List.mem_singleton.mp hb) ▸ ha)⟩
    · intro q hq
      by_cases hqp : q = p
      · subst hqp
        exact lookupAL_eraseAL_self _ _ hkeys
      · rw [lookupAL_eraseAL_ne _ _ _ hqp]
        apply hdisj
        by_cases hmem : p ∈ st.removed
        · rw [if_pos hmem] at hq
          exact hq
        · rw [if_neg hmem] at hq
          rcases List.mem_append.mp hq with h1 | h2
          · exact h1
          · exact absurd (List.mem_singleton.mp h2) hqp
  | clear => exact ⟨List.nodup_nil, List.nodup_nil, fun p hp => absurd hp (List.not_mem_nil p)⟩

/-- The invariant holds after any operation sequence from the empty index. -/
theorem stagingInv_run (ops : List StagingOp) : StagingInv (runStagingOps ops) := by
  have hgen : ∀ (l : List StagingOp) (st : StagingSt), StagingInv st →
      StagingInv (l.foldl applyStagingOp st) := by
    intro l
    induction l with
    | nil => intro st h; exact h
    | cons op rest ih =>
      intro st h
      exact ih _ (stagingInv_apply st op h)
  exact hgen ops ⟨[], []⟩ ⟨List.nodup_nil, List.nodup_nil, fun p hp => absurd hp (List.not_mem_nil p)⟩

/-- Appending one operation applies it to the final state. -/
theorem runStagingOps_append (ops : List StagingOp) (op : StagingOp) :
    runStagingOps (ops ++ [op]) = applyStagingOp (runStagingOps ops) op := by
  simp [runStagingOps, List.foldl_append]

/-- A conflicted three-way merge leaves `.minigit/` untouched and carries a
non-empty conflict list. -/
theorem mergeThreeWay_conflict (s : RepoState)
    (B now cb cur other : Str) (cc oc : CommitR) (cs : List Str)
    (h : (mergeThreeWay s B now cb cur other cc oc).1 =
      Except.error (MergeErr.mergeConflict cs)) :
    (mergeThreeWay s B now cb cur other cc oc).2.minigit = s.minigit ∧ cs ≠ [] := by
  revert h
  unfold mergeThreeWay
  dsimp only
  split
  · intro h; simp at h
  · split
    · intro h; simp at h
    · split
      · rename_i hcs
        intro h
        simp only [Except.error.injEq, MergeErr.mergeConflict.injEq] at h
        subst h
        refine ⟨rfl, ?_⟩
        intro hnil
        rw [hnil] at hcs
        simp at hcs
      · intro h; simp at h

/-- `mergeLoaded` mutates nothing when it reports a conflict. -/
theorem mergeLoaded_conflict (s : RepoState) (B now cb cur other : Str) (cs : List Str)
    (h : (mergeLoaded s B now cb cur other).1 = Except.error (MergeErr.mergeConflict cs)) :
    (mergeLoaded s B now cb cur other).2.minigit = s.minigit ∧ cs ≠ [] := by
  revert h
  unfold mergeLoaded
  dsimp only
  split
  · intro h; simp at h
  · split
    · intro h; simp at h
    · split
      · intro h; simp at h
      · intro h
        exact mergeThreeWay_conflict s B now cb cur other _ _ cs h

/-- `mergeWithBranch` mutates nothing when it reports a conflict. -/
theorem mergeWithBranch_conflict (s : RepoState) (B now cb : Str) (cs : List Str)
    (h : (mergeWithBranch s B now cb).1 = Except.error (MergeErr.mergeConflict cs)) :
    (mergeWithBranch s B now cb).2.minigit = s.minigit ∧ cs ≠ [] := by
  revert h
  unfold mergeWithBranch
  dsimp only
  split
  · intro h; simp at h
  · split
    · intro h; simp at h
    · split
      · intro h; simp at h
      · intro h
        exact mergeLoaded_conflict s B now cb _ _ cs h

/-- `mergeAfterGuard` mutates nothing when it reports a conflict. -/
theorem mergeAfterGuard_conflict (s : RepoState) (B now : Str) (cs : List Str)
    (h : (mergeAfterGuard s B now).1 = Except.error (MergeErr.mergeConflict cs)) :
    (mergeAfterGuard s B now).2.minigit = s.minigit ∧ cs ≠ [] := by
  revert h
  unfold mergeAfterGuard
  dsimp only
  split
  · intro h; simp at h
  · intro h
    exact mergeWithBranch_conflict s B now _ cs h

/-- C3 (amended): whenever the merge operation fails with `MergeConflict`,
the carried conflict list is non-empty and nothing under `.minigit/`
changed: no merge commit object was created, no branch ref moved, HEAD is
untouched, and the index file is left UNCHANGED (the source re-seeds the
index only on a successful merge; conflict markers are written to the
working tree only). -/
theorem C3_merge_conflict_no_mutation (s : RepoState) (B now : Str) (cs : List Str)
    (h : (merge s B now).1 = Except.error (MergeErr.mergeConflict cs)) :
    (merge s B now).2.minigit = s.minigit ∧ cs ≠ [] := by
  revert h
  unfold merge
  split
  · intro h; simp at h
  · intro h
    exact mergeAfterGuard_conflict s B now cs h

/-- C8 (amended): a merge invoked from a detached HEAD (no `ref: ` prefix) of at least 16
characters, when the misread branch file `.minigit/<HEAD[16:]>` is absent,
leaves the state untouched and fails with the safety gate or with
`currentBranchNoCommits` — there is no dedicated `CannotMergeDetached`
rejection in the source. -/
theorem C8_merge_detached_no_mutation (s : RepoState) (B now : Str)
    (hdet : startsWithStr (readF s.minigit headKey) (str "ref: ") = false)
    (hlen : 16 ≤ (readF s.minigit headKey).length)
    (hbr : readF s.minigit ((readF s.minigit headKey).drop 16) = []) :
    (merge s B now).2 = s ∧
      ((merge s B now).1 = Except.error MergeErr.wouldOverwrite ∨
       (merge s B now).1 = Except.error MergeErr.currentBranchNoCommits) := by
  unfold merge
  split
  · exact ⟨rfl, Or.inl rfl⟩
  · unfold mergeAfterGuard
    dsimp only
    rw [if_neg (by omega)]
    unfold mergeWithBranch
    dsimp only
    rw [hbr]
    exact ⟨rfl, Or.inr rfl⟩

/-- C4: when `hasUnstagedChanges` is true against the current HEAD
snapshot, `checkout` fails with the would-overwrite error and returns the
repository state byte-identical: working tree, branch refs, HEAD and the
index file are all unchanged. -/
theorem C4_checkout_unsafe_no_mutation (s : RepoState) (ref : Str)
    (h : wouldOverwriteGuard s = true) :
    checkout s ref = (Except.error CheckoutErr.wouldOverwrite, s) := by
  unfold checkout
  rw [if_pos h]

/-- The BFS distance map rooted at `root`, as the first phase of
`Commit::findLCA` computes it; `distFrom mg root v` is `v`'s BFS depth. -/
def distFrom (mg : AL) (root v : Str) : Option Nat :=
  match distsLoop mg (bfsBound mg) [root] [(root, 0)] with
  | none => none
  | some d1 => lookupDist d1 v

/-- Two commits agreeing on message, author and timestamp but with
different snapshots (claim C1's failing input). -/
def c1a : CommitR :=
  ⟨[], str "msg", str "alice", str "2024-01-01 00:00:00", [], [(str "f", str "h1")]⟩

/-- Same headers as `c1a`, different snapshot. -/
def c1b : CommitR :=
  ⟨[], str "msg", str "alice", str "2024-01-01 00:00:00", [], [(str "f", str "h2")]⟩

/-- C1: the digest `Repository::commit` / `Repository::merge` assign hashes
only message+author+timestamp, so two commits with equal headers but
different snapshots collide, while the digest of the full serialized body
(which the spec mandates) distinguishes them. -/
theorem C1_digest_ignores_body :
    codeCommitDigest c1a = codeCommitDigest c1b ∧
    c1a.snapshot ≠ c1b.snapshot ∧
    commitSerialize c1a ≠ commitSerialize c1b ∧
    bodyCommitDigest c1a ≠ bodyCommitDigest c1b := by
  refine ⟨rfl, by decide, by decide, by decide⟩

/-- Repository whose HEAD commit tracks `keep` and whose index stages
`new` (claim C2's failing input). -/
def sC2 : RepoState := ⟨[(str "keep", str "K"), (str "new", str "N")],
  [(headKey, str "ref: refs/heads/master"),
   (refKey (str "master"), str "Ch"),
   (objKey (str "Ch"), str "m\nau\nt\n\nkeep h1\n"),
   (indexKey, str "staged h2 new\n")]⟩

/-- C2: `Repository::commit` never derives the overlay snapshot: it hands
`createFromStagingArea` the index FILE path, whose directory iteration
fails, so commit errors out while the spec's overlay derivation (HEAD
snapshot + staged − removed) preserves `keep` and records `new`. -/
theorem C2_commit_not_overlay :
    commitOp sC2 (str "msg") = (Except.error CommitErr.stagingScanFailed, sC2) ∧
    (loadFromObjectStore sC2.minigit (str "Ch")).snapshot = [(str "keep", str "h1")] ∧
    (parseIndex (readF sC2.minigit indexKey)).1 = [(str "new", str "h2")] ∧
    snapshotForCommitSpec [(str "keep", str "h1")] [(str "new", str "h2")] [] =
      [(str "keep", str "h1"), (str "new", str "h2")] := by
  refine ⟨rfl, by decide, by decide, by decide⟩

/-- Blob digests of the conflicting contents in claim C3's repository. -/
def hA : Str := computeHash (str "gA")

/-- Digest of the current side's conflicting content. -/
def hB : Str := computeHash (str "fB")

/-- Digest of the other side's conflicting content. -/
def hC : Str := computeHash (str "fC")

/-- Digest of the base version of the conflicted file. -/
def hAf : Str := computeHash (str "fA")

/-- Repository in which merging `feature` into `master` conflicts on `f`
and agrees on `g` (claim C3's input; the buggy branch-tip read is satisfied
by also placing the tip at `.minigit/master`). -/
def sConf : RepoState := ⟨[(str "f", str "fB"), (str "g", str "gA")],
  [(headKey, str "ref: refs/heads/master"),
   (str "master", str "Chh"),
   (refKey (str "master"), str "Chh"),
   (refKey (str "feature"), str "Ohh"),
   (objKey (str "Lhh"), str "m\nau\nt\n\nf " ++ hAf ++ ('\n' :: str "g ") ++ hA ++ ['\n']),
   (objKey (str "Chh"), str "m\nau\nt\nLhh\nf " ++ hB ++ ('\n' :: str "g ") ++ hA ++ ['\n']),
   (objKey (str "Ohh"), str "m\nau\nt\nLhh\nf " ++ hC ++ ('\n' :: str "g ") ++ hA ++ ['\n']),
   (objKey hB, str "fB"), (objKey hA, str "gA"), (objKey hC, str "fC"),
   (indexKey, [])]⟩

/-- C3 counterexample: on a conflicted merge the index file stays exactly
as it was (here: empty) — it is NOT re-seeded with the non-conflicting
merged path `g` — while the conflict is reported with its path list and
the marker text lands in the working tree. -/
theorem C3_conflict_index_not_reseeded :
    (merge sConf (str "feature") (str "ts")).1 =
      Except.error (MergeErr.mergeConflict [str "f"]) ∧
    (merge sConf (str "feature") (str "ts")).2.minigit = sConf.minigit ∧
    readF (merge sConf (str "feature") (str "ts")).2.minigit indexKey = [] ∧
    (parseIndex (readF (merge sConf (str "feature") (str "ts")).2.minigit indexKey)).1 = [] ∧
    lookupAL (merge sConf (str "feature") (str "ts")).2.workTree (str "g") =
      some (str "gA") := by
  refine ⟨rfl, by decide, by decide, rfl, by decide⟩

/-- Witness for C3's amended theorem at the concrete conflicted merge. -/
theorem C3_merge_conflict_no_mutation_witness :
    (merge sConf (str "feature") (str "ts")).2.minigit = sConf.minigit ∧
      ([str "f"] : List Str) ≠ [] :=
  C3_merge_conflict_no_mutation sConf (str "feature") (str "ts") [str "f"] (by rfl)

/-- Repository with an unstaged modification of `f` (claim C4's input). -/
def sC4 : RepoState := ⟨[(str "f", str "new")],
  [(headKey, str "ref: refs/heads/master"),
   (refKey (str "master"), str "Ch"),
   (objKey (str "Ch"), str "m\nau\nt\n\nf h1\n"),
   (indexKey, [])]⟩

/-- Witness for C4 at a repository with an unstaged modification. -/
theorem C4_checkout_unsafe_no_mutation_witness :
    checkout sC4 (str "feature") = (Except.error CheckoutErr.wouldOverwrite, sC4) :=
  C4_checkout_unsafe_no_mutation sC4 (str "feature") (by decide)

/-- Repository in which `master`'s tip `Ch` is a strict ancestor of
`feature`'s tip `Oh` and the working tree is clean (claim C5's input). -/
def sFF : RepoState := ⟨[],
  [(headKey, str "ref: refs/heads/master"),
   (refKey (str "master"), str "Ch"),
   (refKey (str "feature"), str "Oh"),
   (objKey (str "Ch"), str "m\nau\nt\n\n"),
   (objKey (str "Oh"), str "m2\nau\nt2\nCh\n"),
   (indexKey, [])]⟩

/-- C5: all fast-forward preconditions hold (`Ch` is a strict ancestor of
`Oh`, the tree is clean, HEAD is attached to `master` whose ref holds
`Ch`), yet `merge` reads the current tip from `.minigit/master` instead of
`.minigit/refs/heads/master`, finds nothing and fails with
`currentBranchNoCommits`, moving no ref and touching nothing. -/
theorem C5_fastforward_never_reached :
    isAncestor sFF.minigit (str "Ch") (str "Oh") = true ∧
    str "Ch" ≠ str "Oh" ∧
    wouldOverwriteGuard sFF = false ∧
    readF sFF.minigit (refKey (str "master")) = str "Ch" ∧
    readF sFF.minigit (str "master") = [] ∧
    merge sFF (str "feature") (str "ts") =
      (Except.error MergeErr.currentBranchNoCommits, sFF) := by
  refine ⟨by decide, by decide, by decide, by decide, by decide, rfl⟩

/-- Criss-cross object store for claim C6: common ancestors `a` (depths
5 from `x`, 1 from `y`) and `b` (depths 1 from `x`, 2 from `y`). -/
def mgLCA : AL :=
  [(objKey (str "x"), str "m\nau\nt\nx1 b\n"),
   (objKey (str "x1"), str "m\nau\nt\nx2\n"),
   (objKey (str "x2"), str "m\nau\nt\nx3\n"),
   (objKey (str "x3"), str "m\nau\nt\nx4\n"),
   (objKey (str "x4"), str "m\nau\nt\na\n"),
   (objKey (str "a"), str "m\nau\nt\nb\n"),
   (objKey (str "b"), str "m\nau\nt\n\n"),
   (objKey (str "y"), str "m\nau\nt\na\n")]

/-- C6: `findLCA` returns `a`, the first common ancestor its BFS from `y`
meets, although the common ancestor `b` has the strictly smaller BFS-depth
sum 1 + 2 = 3 against `a`'s 5 + 1 = 6 — the sum-minimizing rule of the
claim is not what the code implements (its `minDistance` is never used). -/
theorem C6_lca_first_match_not_minimal :
    findLCA mgLCA (str "x") (str "y") = str "a" ∧
    distFrom mgLCA (str "x") (str "a") = some 5 ∧
    distFrom mgLCA (str "y") (str "a") = some 1 ∧
    distFrom mgLCA (str "x") (str "b") = some 1 ∧
    distFrom mgLCA (str "y") (str "b") = some 2 ∧
    isAncestor mgLCA (str "b") (str "x") = true ∧
    isAncestor mgLCA (str "b") (str "y") = true := by
  refine ⟨by decide, by decide, by decide, by decide, by decide, by decide, by decide⟩

/-- Commit whose snapshot path contains a space (claim C7's failing
input). -/
def c7bad : CommitR := ⟨[], str "m", str "au", str "t", [], [(str "a b", str "h")]⟩

/-- C7 counterexample: a snapshot path with a space does not survive the
round trip — the parser splits `a b h` at the FIRST space, yielding path
`a` and digest `b h`. -/
theorem C7_space_path_breaks_roundtrip :
    (parseCommitContent (commitSerialize c7bad)).snapshot = [(str "a", str "b h")] ∧
    (parseCommitContent (commitSerialize c7bad)).snapshot ≠ c7bad.snapshot := by
  refine ⟨by decide, by decide⟩

/-- A well-formed commit (space-free path, digest containing a space) for
C7's witness. -/
def c7good : CommitR :=
  ⟨[], str "m1", str "alice", str "2024-01-01 00:00:00",
    [str "p1", str "p2"], [(str "dir/file.txt", str "h 1")]⟩

/-- Witness for C7's amended round trip at a concrete commit. -/
theorem C7_commit_roundtrip_witness :
    (parseCommitContent (commitSerialize c7good)).message = c7good.message ∧
    (parseCommitContent (commitSerialize c7good)).author = c7good.author ∧
    (parseCommitContent (commitSerialize c7good)).timestamp = c7good.timestamp ∧
    (parseCommitContent (commitSerialize c7good)).parents = c7good.parents ∧
    (parseCommitContent (commitSerialize c7good)).snapshot = c7good.snapshot :=
  C7_commit_roundtrip c7good (by decide) (by decide) (by decide) (by decide) (by decide)

/-- Repository with a detached HEAD at a stored commit (claim C8's
input). -/
def sDet : RepoState := ⟨[],
  [(headKey, str "1234567890_temp_hash"),
   (objKey (str "1234567890_temp_hash"), str "m\nau\nt\n\n"),
   (indexKey, [])]⟩

/-- C8 counterexample: the detached merge fails with
`currentBranchNoCommits` (after misparsing HEAD as a symbolic ref), not
with the `CannotMergeDetached` rejection the claim names. -/
theorem C8_detached_error_kind :
    merge sDet (str "feature") (str "ts") =
      (Except.error MergeErr.currentBranchNoCommits, sDet) ∧
    (Except.error MergeErr.currentBranchNoCommits : Except MergeErr Unit) ≠
      Except.error MergeErr.cannotMergeDetached := by
  refine ⟨rfl, ?_⟩
  intro h
  injection h with h2
  exact absurd h2 (by decide)

/-- Witness for C8's amended theorem at the concrete detached state. -/
theorem C8_merge_detached_no_mutation_witness :
    (merge sDet (str "feature") (str "ts")).2 = sDet ∧
      ((merge sDet (str "feature") (str "ts")).1 = Except.error MergeErr.wouldOverwrite ∨
       (merge sDet (str "feature") (str "ts")).1 =
         Except.error MergeErr.currentBranchNoCommits) :=
  C8_merge_detached_no_mutation sDet (str "feature") (str "ts")
    (by decide) (by decide) (by decide)

/-- C9: after any sequence of staging-area operations from the empty index
no path is both staged and removed; adding a path (whose file exists)
stages it at the digest of its content and clears it from `removed`;
removing a path erases it from `staged` and inserts it into `removed`. -/
theorem C9_index_disjointness :
    ∀ (ops : List StagingOp) (p : Str),
      (p ∈ (runStagingOps ops).removed → lookupAL (runStagingOps ops).staged p = none) ∧
      (∀ wt, existsF wt p = true →
        lookupAL (runStagingOps (ops ++ [StagingOp.add wt p])).staged p =
          some (computeHash (readF wt p)) ∧
        p ∉ (runStagingOps (ops ++ [StagingOp.add wt p])).removed) ∧
      (lookupAL (runStagingOps (ops ++ [StagingOp.remove p])).staged p = none ∧
        p ∈ (runStagingOps (ops ++ [StagingOp.remove p])).removed) := by
  intro ops p
  obtain ⟨hkeys, hrem, hdisj⟩ := stagingInv_run ops
  refine ⟨fun hp => hdisj p hp, ?_, ?_⟩
  · intro wt hex
    rw [runStagingOps_append]
    constructor
    · show lookupAL (addFileOp wt p (runStagingOps ops)).staged p = _
      unfold addFileOp
      rw [if_pos hex]
      dsimp only
      rw [lookupAL_insertAL]
      simp
    · show p ∉ (addFileOp wt p (runStagingOps ops)).removed
      unfold addFileOp
      rw [if_pos hex]
      dsimp only
      intro hmem
      obtain ⟨hne, _⟩ := (List.Nodup.mem_erase_iff hrem).mp hmem
      exact hne rfl
  · rw [runStagingOps_append]
    constructor
    · show lookupAL (removeFileOp p (runStagingOps ops)).staged p = none
      unfold removeFileOp
      dsimp only
      exact lookupAL_eraseAL_self _ _ hkeys
    · show p ∈ (removeFileOp p (runStagingOps ops)).removed
      unfold removeFileOp
      dsimp only
      by_cases hmem : p ∈ (runStagingOps ops).removed
      · rw [if_pos hmem]; exact hmem
      · rw [if_neg hmem]
        exact List.mem_append.mpr (Or.inr (List.mem_singleton.mpr rfl))

/-- Witness for C9 at a concrete operation sequence. -/
theorem C9_index_disjointness_witness :
    lookupAL (runStagingOps [StagingOp.remove (str "a")]).staged (str "a") = none ∧
    lookupAL (runStagingOps ([StagingOp.remove (str "a")] ++
      [StagingOp.add [(str "a", str "x")] (str "a")])).staged (str "a") =
      some (computeHash (readF [(str "a", str "x")] (str "a"))) ∧
    str "a" ∉ (runStagingOps ([StagingOp.remove (str "a")] ++
      [StagingOp.add [(str "a", str "x")] (str "a")])).removed := by
  have h := C9_index_disjointness [StagingOp.remove (str "a")] (str "a")
  have h2 := h.2.1 [(str "a", str "x")] (by decide)
  exact ⟨h.1 (by decide), h2.1, h2.2⟩

/-- C10: with the chosen fuel bound, `isAncestor`'s BFS and both BFS phases
of `findLCA` always return — each visits a digest at most once via its
visited set, even on cyclic stores — and a digest with no object in the
store loads as an invalid commit, which the walks skip rather than abort
on. -/
theorem C10_bfs_termination (mg : AL) (a d x y hobj : Str) :
    (isAncestorOpt mg a d).isSome = true ∧
    (findLCAOpt mg x y).isSome = true ∧
    (lookupAL mg (objKey hobj) = none → (loadFromObjectStore mg hobj).isValid = false) := by
  refine ⟨isAncestorOpt_isSome mg a d, findLCAOpt_isSome mg x y, fun h => ?_⟩
  unfold loadFromObjectStore
  rw [readF, h]
  rfl

/-- Object store whose two commits cite each other as parents. -/
def mgCyc : AL :=
  [(objKey (str "A"), str "m\nau\nt\nB\n"),
   (objKey (str "B"), str "m\nau\nt\nA\n")]

/-- Witness for C10 on a cyclic store with a missing object. -/
theorem C10_bfs_termination_witness :
    (isAncestorOpt mgCyc (str "A") (str "B")).isSome = true ∧
    (findLCAOpt mgCyc (str "A") (str "B")).isSome = true ∧
    (loadFromObjectStore mgCyc (str "missing")).isValid = false := by
  have h := C10_bfs_termination mgCyc (str "A") (str "B") (str "A") (str "B") (str "missing")
  exact ⟨h.1, h.2.1, h.2.2 (by decide)⟩
